import Mathlib

/-!
Shallow embedding of the persona/tool-dispatch layer (src/discord-bot/agent_logic.py)
and the stateful MCP tool backend (src/mcp-server/server.py) of the discord_bot
repository, with proofs settling the frozen claims about this code.

Conventions: Python lists become Lean lists, MongoDB collections become explicit
Lean state values threaded through the operations, timestamps become naturals
(utcnow readings), and Python float weight values become rationals (the code does
no arithmetic on them, it only stores and returns them).
-/

namespace DiscordBot

/-- A discovered tool descriptor; identity is the name (elements of the
`mcp_tools` list in agent_logic.py, produced by the `@mcp.tool` functions
of server.py). -/
structure Tool where
  name : String
deriving DecidableEq, Repr

/-- The Python substring test `sub in s`, embedded as list-infix on the
character sequences of the two strings. -/
def containsSub (s sub : String) : Bool := decide (sub.data <:+: s.data)

/-- agent_logic.py line 130:
`weight_mcp = [t for t in mcp_tools if any(word in t.name for word in ["weight", "data"])]`. -/
def weight_mcp (mcp_tools : List Tool) : List Tool :=
  mcp_tools.filter (fun t => (["weight", "data"].any (fun word => containsSub t.name word)))

/-- agent_logic.py line 131: `rust_mcp = [t for t in mcp_tools if "rust" in t.name]`. -/
def rust_mcp (mcp_tools : List Tool) : List Tool :=
  mcp_tools.filter (fun t => containsSub t.name "rust")

/-- agent_logic.py line 132: `cpp_mcp = [t for t in mcp_tools if "cpp" in t.name]`. -/
def cpp_mcp (mcp_tools : List Tool) : List Tool :=
  mcp_tools.filter (fun t => containsSub t.name "cpp")

/-- agent_logic.py line 133: `python_mcp = [t for t in mcp_tools if "python" in t.name]`. -/
def python_mcp (mcp_tools : List Tool) : List Tool :=
  mcp_tools.filter (fun t => containsSub t.name "python")

/-- agent_logic.py line 134: `history_mcp = [t for t in mcp_tools if "history" in t.name]`. -/
def history_mcp (mcp_tools : List Tool) : List Tool :=
  mcp_tools.filter (fun t => containsSub t.name "history")

/-- A weight record as inserted by server.py record_weight:
`{"weight": weight, "unit": unit, "timestamp": datetime.utcnow()}`. -/
structure WeightRecord where
  weight : ℚ
  unit : String
  timestamp : ℕ
deriving DecidableEq, Repr

/-- server.py lines 61-74, `record_weight(weight, unit)`: builds the entry with the
current time and inserts it into the `weights` collection unconditionally (there is
no validation of the weight value or of the unit in the source), returning the new
collection state together with the confirmation message. -/
def record_weight (weight : ℚ) (unit : String) (now : ℕ) (weights_col : List WeightRecord) :
    List WeightRecord × String :=
  (weights_col ++ [⟨weight, unit, now⟩], "✅ Recorded: " ++ toString weight ++ " " ++ unit)

/-- The MongoDB sort key `("timestamp", -1)` (timestamp descending) used by
get_weights and get_last_weight. -/
def byTimestampDesc (a b : WeightRecord) : Prop := b.timestamp ≤ a.timestamp

instance : DecidableRel byTimestampDesc := fun a b => Nat.decLe b.timestamp a.timestamp

instance : IsTotal WeightRecord byTimestampDesc := ⟨fun a b => Nat.le_total b.timestamp a.timestamp⟩

instance : IsTrans WeightRecord byTimestampDesc := ⟨fun _ _ _ h1 h2 => Nat.le_trans h2 h1⟩

/-- server.py lines 77-89, `get_weights()`: returns all records of the `weights`
collection sorted by timestamp descending (most recent first). -/
def get_weights (weights_col : List WeightRecord) : List WeightRecord :=
  List.insertionSort byTimestampDesc weights_col

/-- Result shape of get_last_weight: either the most recent record or the
structured marker `{"error": "No weight records found"}`. -/
inductive LastWeightResult
  | found (r : WeightRecord)
  | noRecords
deriving DecidableEq, Repr

/-- server.py lines 92-104, `get_last_weight()`: `find_one` with sort
`[("timestamp", -1)]`, i.e. the first record in timestamp-descending order,
or the structured not-found marker when the collection is empty. -/
def get_last_weight (weights_col : List WeightRecord) : LastWeightResult :=
  match get_weights weights_col with
  | [] => .noRecords
  | r :: _ => .found r

/-- server.py lines 107-115, `delete_all_weights()`: `delete_many({})` removes every
record; the returned message reports `result.deleted_count`, the number of records
present immediately before the deletion. Embedded as (deleted count, new state). -/
def delete_all_weights (weights_col : List WeightRecord) : ℕ × List WeightRecord :=
  (weights_col.length, [])

/-- A curriculum topic as read from `data/{language}_curriculum.json`
(fields accessed by _get_topic and _advance_topic in server.py). -/
structure Topic where
  index : ℕ
  sectionName : String
  title : String
  explanation : String
  exercise : String
  hint : String
deriving DecidableEq, Repr

/-- Structured result of the _get_topic and _advance_topic helpers of server.py:
the curriculum-not-found error, the all-topics-completed error marker, the
congratulatory completion message of _advance_topic, or a topic payload carrying
the 1-based `current_index` display field and `total_topics`. -/
inductive TopicResult
  | curriculumNotFound (language : String)
  | allCompleted (language : String) (current_index total_topics : ℕ)
  | congrats (language : String) (current_index total_topics : ℕ)
  | topicPayload (t : Topic) (current_index total_topics : ℕ) (language : String)
deriving DecidableEq, Repr

/-- server.py lines 118-146, `_get_topic(language)`: load the curriculum (an empty
list means not found), read the stored `current_topic_index` (`idx` here; the stored
progress document for each of rust/cpp/python is created by init_db with index 0),
return the completed marker when the index is past the end, else the topic at the
zero-based stored index with the 1-based `current_index` field. Read-only. -/
def get_topic (language : String) (curriculum : List Topic) (idx : ℕ) : TopicResult :=
  if curriculum = [] then .curriculumNotFound language
  else if _h : curriculum.length ≤ idx then .allCompleted language idx curriculum.length
  else .topicPayload (curriculum.get ⟨idx, by omega⟩) (idx + 1) curriculum.length language

/-- server.py lines 149-191, `_advance_topic(language)`: when the curriculum is
missing or the stored index is already at or past the end, no write happens; else
the stored index becomes `idx + 1` (the `new_index` variable of the source is
written `idx + 1` inline here) and either the congratulatory message (new index
equals the length) or the topic at the new index is returned. Embedded as
(returned result, stored index after the call). -/
def advance_topic (language : String) (curriculum : List Topic) (idx : ℕ) :
    TopicResult × ℕ :=
  if curriculum = [] then (.curriculumNotFound language, idx)
  else if _h : curriculum.length ≤ idx then (.allCompleted language idx curriculum.length, idx)
  else if _h2 : curriculum.length ≤ idx + 1 then
    (.congrats language (idx + 1) curriculum.length, idx + 1)
  else
    (.topicPayload (curriculum.get ⟨idx + 1, by omega⟩) (idx + 1 + 1)
      curriculum.length language, idx + 1)

/-- server.py lines 194-200, `_reset_progress(language)`: unconditionally writes
`current_topic_index := 0` and returns the success message. Embedded as
(returned message, stored index after the call). -/
def reset_progress (language : String) (_idx : ℕ) : String × ℕ :=
  (language.capitalize ++ " progress successfully reset. Ready to start fresh!", 0)

/-- Iterated advance: the stored index after k successive _advance_topic calls. -/
def advanceK (language : String) (curriculum : List Topic) (idx : ℕ) : ℕ → ℕ
  | 0 => idx
  | k + 1 => advanceK language curriculum (advance_topic language curriculum idx).2 k

/-- The three operations of the curriculum progress state machine exposed by the
tool server for each language. -/
inductive ProgressOp
  | get
  | advance
  | reset
deriving DecidableEq, Repr

/-- Effect of one progress operation on the stored index: _get_topic never writes,
_advance_topic writes as in `advance_topic`, _reset_progress writes 0. -/
def applyOp (language : String) (curriculum : List Topic) (op : ProgressOp) (idx : ℕ) : ℕ :=
  match op with
  | .get => idx
  | .advance => (advance_topic language curriculum idx).2
  | .reset => (reset_progress language idx).2

/-- Stored index after a whole sequence of progress operations. -/
def applyOps (language : String) (curriculum : List Topic) (ops : List ProgressOp) (idx : ℕ) : ℕ :=
  ops.foldl (fun i op => applyOp language curriculum op i) idx

/-- Outcome of one discovery attempt in initialize_personas (agent_logic.py lines
105-127): either `client.get_tools()` raises (caught by the except branch) or it
returns a list of tools. -/
inductive AttemptOutcome
  | fail
  | ok (tools : List Tool)

/-- Observable result of the discovery loop: the final `mcp_tools` value, the
number of attempts actually made, and the number of `asyncio.sleep(retry_delay)`
calls performed. -/
structure DiscoveryResult where
  tools : List Tool
  attemptsMade : ℕ
  sleeps : ℕ
deriving DecidableEq, Repr

/-- One step structure of the `for attempt in range(max_retries)` loop of
initialize_personas: on a non-raising attempt `mcp_tools` is overwritten with the
returned list and the loop breaks if that list is non-empty; on a raising attempt
the loop sleeps only when `attempt < max_retries - 1` (`lastAttempt` here) and
continues. `remaining` counts the loop iterations still available. -/
def discoverGo (outcomes : ℕ → AttemptOutcome) (lastAttempt : ℕ) :
    ℕ → ℕ → List Tool → ℕ → DiscoveryResult
  | 0, attempt, mcp_tools, sleeps => ⟨mcp_tools, attempt, sleeps⟩
  | remaining + 1, attempt, mcp_tools, sleeps =>
    match outcomes attempt with
    | .ok tools =>
      if tools = [] then discoverGo outcomes lastAttempt remaining (attempt + 1) tools sleeps
      else ⟨tools, attempt + 1, sleeps⟩
    | .fail =>
      if attempt < lastAttempt then
        discoverGo outcomes lastAttempt remaining (attempt + 1) mcp_tools (sleeps + 1)
      else discoverGo outcomes lastAttempt remaining (attempt + 1) mcp_tools sleeps

/-- agent_logic.py lines 99-127: the whole discovery loop, starting from
`mcp_tools = []`, attempt 0 and no sleeps, with `max_retries` iterations available
and the sleep guard `attempt < max_retries - 1`. Exceptions are swallowed by the
except branch, so the loop never raises and always yields a final tool list. -/
def discover_tools (outcomes : ℕ → AttemptOutcome) (max_retries : ℕ) : DiscoveryResult :=
  discoverGo outcomes (max_retries - 1) max_retries 0 [] 0

/-- Predicate on an attempt outcome: it returned without raising and with a
non-empty tool list (the condition under which the source loop breaks). -/
def nonEmptyOk : AttemptOutcome → Prop
  | .fail => False
  | .ok tools => tools ≠ []

instance : DecidablePred nonEmptyOk := fun o => by
  cases o with
  | fail => exact isFalse (fun h => h)
  | ok tools => exact inferInstanceAs (Decidable (tools ≠ []))

/-- Modelled from the spec: the User Mode Store (spec section 4.5) is not
implemented under src/ — agent_logic.py only holds the persona catalog dictionary
and gradio_ui.py only shows an informational persona dropdown; no set_mode or
get_mode code exists in the sources. The store maps user ids to persona ids,
with default persona id "general" (the dropdown default and the catch-all
persona id of the catalog). -/
def defaultPersonaId : String := "general"

/-- Modelled from the spec: the user-to-persona mode map, an association list
keyed by user id (first entry for a user wins, so upsert prepends). -/
structure ModeStore where
  modes : List (String × String)
deriving DecidableEq, Repr

/-- Modelled from the spec: `get_mode(user_id) -> persona_id` returns the default
persona id if no entry exists or if the stored persona id is no longer present in
the catalog (self-healing fallback, never an error). -/
def get_mode (catalog : List String) (st : ModeStore) (user : String) : String :=
  match st.modes.lookup user with
  | some p => if p ∈ catalog then p else defaultPersonaId
  | none => defaultPersonaId

/-- Modelled from the spec: `set_mode(user_id, persona_id)` fails with
UnknownPersona if the persona id is not in the current catalog (leaving the store
untouched); otherwise upserts the mapping. `Except.error ()` is UnknownPersona. -/
def set_mode (catalog : List String) (st : ModeStore) (user p : String) :
    Except Unit ModeStore :=
  if p ∈ catalog then .ok ⟨(user, p) :: st.modes⟩ else .error ()

/-- The persona catalog ids built by initialize_personas (agent_logic.py lines
144-200) and listed as AVAILABLE_PERSONAS in gradio_ui.py line 88. -/
def availablePersonas : List String := ["general", "weight", "rust", "cpp", "python"]

/-- A sample curriculum topic used to evaluate the theorems on concrete inputs. -/
def topicA : Topic := ⟨1, "Basics", "Getting Started", "Introduction text", "Exercise 1", "Hint 1"⟩

/-- A second sample curriculum topic used to evaluate the theorems on concrete inputs. -/
def topicB : Topic := ⟨2, "Basics", "Variables", "More text", "Exercise 2", "Hint 2"⟩

/-- C1 counterexample: a discovered tool whose name contains "rust" is NOT confined
to the rust group — the filters of initialize_personas are independent substring
tests with no priority, so the tool named rust_history is placed in the rust group
and in the history group at the same time, refuting the at-most-one-group and
first-matching-rule-wins reading of the partitioning step. -/
theorem c1_counterexample :
    containsSub (Tool.mk "rust_history").name "rust" = true ∧
    Tool.mk "rust_history" ∈ rust_mcp [Tool.mk "rust_history"] ∧
    Tool.mk "rust_history" ∈ history_mcp [Tool.mk "rust_history"] := by
  decide

/-- C1 (amended): every tool whose name contains "rust" ends up in the rust group,
for any permutation of the input list ordering; the five groups are independent
substring filters evaluated without priority, so membership of a tool in each group
is exactly the keyword test on its name, and a tool whose name matches several
keyword sets appears in several groups at once. -/
theorem c1_rust_group (mcp_tools mcp_tools2 : List Tool) (t : Tool)
    (ht : t ∈ mcp_tools) (hname : containsSub t.name "rust" = true)
    (hperm : mcp_tools.Perm mcp_tools2) :
    t ∈ rust_mcp mcp_tools ∧ t ∈ rust_mcp mcp_tools2 ∧
    (t ∈ weight_mcp mcp_tools ↔
      (containsSub t.name "weight" = true ∨ containsSub t.name "data" = true)) ∧
    (t ∈ cpp_mcp mcp_tools ↔ containsSub t.name "cpp" = true) ∧
    (t ∈ python_mcp mcp_tools ↔ containsSub t.name "python" = true) ∧
    (t ∈ history_mcp mcp_tools ↔ containsSub t.name "history" = true) := by
  refine ⟨List.mem_filter.mpr ⟨ht, hname⟩,
    List.mem_filter.mpr ⟨hperm.mem_iff.mp ht, hname⟩, ?_, ?_, ?_, ?_⟩
  · simp [weight_mcp, List.mem_filter, ht]
  · simp [cpp_mcp, List.mem_filter, ht]
  · simp [python_mcp, List.mem_filter, ht]
  · simp [history_mcp, List.mem_filter, ht]

/-- C1 witness: the amended theorem evaluated on a concrete discovered tool list
and its swapped permutation. -/
theorem c1_witness :
    Tool.mk "advance_rust_topic" ∈
      rust_mcp [Tool.mk "record_weight", Tool.mk "advance_rust_topic"] ∧
    Tool.mk "advance_rust_topic" ∈
      rust_mcp [Tool.mk "advance_rust_topic", Tool.mk "record_weight"] ∧
    (Tool.mk "advance_rust_topic" ∈
        history_mcp [Tool.mk "record_weight", Tool.mk "advance_rust_topic"] ↔
      containsSub (Tool.mk "advance_rust_topic").name "history" = true) := by
  have h := c1_rust_group [Tool.mk "record_weight", Tool.mk "advance_rust_topic"]
    [Tool.mk "advance_rust_topic", Tool.mk "record_weight"] (Tool.mk "advance_rust_topic")
    (by decide) (by decide)
    (List.Perm.swap (Tool.mk "advance_rust_topic") (Tool.mk "record_weight") [])
  exact ⟨h.1, h.2.1, h.2.2.2.2.2⟩

/-- C2 counterexample: record_weight with a negative weight and a unit outside
{kg, lbs} still inserts a record into storage (and get_last_weight then returns
it), refuting the claim that invalid inputs are rejected before any write reaches
storage. -/
theorem c2_counterexample :
    (record_weight (-5) "stones" 0 []).1 = [⟨-5, "stones", 0⟩] ∧
    get_last_weight (record_weight (-5) "stones" 0 []).1 = .found ⟨-5, "stones", 0⟩ := by
  constructor <;> rfl

/-- C2 (amended): record_weight performs no input validation at all — every call,
whatever the weight value and unit string, appends exactly the given entry with the
current timestamp to storage; the restriction of the unit to kg or lbs exists only
as docstring guidance to the calling agent. -/
theorem c2_record_weight_unvalidated (w : ℚ) (u : String) (now : ℕ)
    (weights_col : List WeightRecord) :
    (record_weight w u now weights_col).1 = weights_col ++ [⟨w, u, now⟩] := rfl

/-- Head of the timestamp-descending sort: when one added record has a strictly
larger timestamp than every stored record, it is the first element returned. -/
theorem get_weights_head_of_latest (store : List WeightRecord) (x : WeightRecord)
    (h : ∀ r ∈ store, r.timestamp < x.timestamp) :
    ∃ rest, get_weights (store ++ [x]) = x :: rest := by
  have hperm : (get_weights (store ++ [x])).Perm (store ++ [x]) :=
    List.perm_insertionSort _ _
  have hsort : List.Sorted byTimestampDesc (get_weights (store ++ [x])) :=
    List.sorted_insertionSort _ _
  have hx : x ∈ get_weights (store ++ [x]) := hperm.mem_iff.mpr (by simp)
  cases hgw : get_weights (store ++ [x]) with
  | nil => rw [hgw] at hx; cases hx
  | cons y ys =>
    rw [hgw] at hx hsort hperm
    rcases List.mem_cons.mp hx with hxy | hxys
    · exact ⟨ys, by rw [hxy]⟩
    · have hyx : byTimestampDesc y x := List.rel_of_sorted_cons hsort x hxys
      have hy : y ∈ store ++ [x] := hperm.mem_iff.mp (List.mem_cons_self y ys)
      rcases List.mem_append.mp hy with hyst | hylast
      · have hlt := h y hyst
        unfold byTimestampDesc at hyx
        omega
      · have hyeq : y = x := by simpa using hylast
        exact ⟨ys, by rw [hyeq]⟩

/-- C8: record_weight(w, u) immediately followed by get_last_weight() returns a
record with the recorded weight and unit and a timestamp at least the time
observed just before the call (the insertion timestamp is fresh: every already
stored record is strictly older, and the monotone clock reads now ≥ before); on an
empty store get_last_weight returns the structured not-found marker. -/
theorem c8_record_then_last (w : ℚ) (u : String) (now before : ℕ)
    (store : List WeightRecord)
    (hfresh : ∀ r ∈ store, r.timestamp < now) (hclock : before ≤ now) :
    (∃ r, get_last_weight (record_weight w u now store).1 = .found r ∧
      r.weight = w ∧ r.unit = u ∧ before ≤ r.timestamp) ∧
    get_last_weight [] = .noRecords := by
  obtain ⟨rest, hrest⟩ := get_weights_head_of_latest store ⟨w, u, now⟩ hfresh
  have hlast : get_last_weight (store ++ [⟨w, u, now⟩]) = .found ⟨w, u, now⟩ := by
    unfold get_last_weight
    rw [hrest]
  exact ⟨⟨⟨w, u, now⟩, hlast, rfl, rfl, hclock⟩, rfl⟩

/-- C8 witness: the theorem evaluated on an empty store at concrete times. -/
theorem c8_witness :
    (∃ r, get_last_weight (record_weight 70 "kg" 5 []).1 = .found r ∧
      r.weight = 70 ∧ r.unit = "kg" ∧ 3 ≤ r.timestamp) ∧
    get_last_weight [] = .noRecords :=
  c8_record_then_last 70 "kg" 5 3 [] (by simp) (by omega)

/-- C9: delete_all_weights reports a deleted count equal to the number of stored
records and leaves the store empty, so a following get_weights returns the empty
sequence; and get_weights always returns exactly the stored records (a permutation
of the store) ordered by timestamp descending (newest first). -/
theorem c9_delete_all (store : List WeightRecord) :
    (delete_all_weights store).1 = store.length ∧
    get_weights (delete_all_weights store).2 = [] ∧
    (get_weights store).Perm store ∧
    List.Sorted byTimestampDesc (get_weights store) :=
  ⟨rfl, rfl, List.perm_insertionSort _ _, List.sorted_insertionSort _ _⟩

/-- C3: before any set_mode for a user, get_mode returns the default persona id;
set_mode with a persona id in the catalog upserts the mapping so that a following
get_mode returns it; set_mode with a persona id outside the catalog fails with
UnknownPersona (modelled as `Except.error ()`), returning no new store, so the
previously stored mode is unchanged. -/
theorem c3_user_mode_ops (catalog : List String) (st : ModeStore) (user p : String) :
    (st.modes.lookup user = none → get_mode catalog st user = defaultPersonaId) ∧
    (p ∈ catalog → ∃ st2, set_mode catalog st user p = .ok st2 ∧
      get_mode catalog st2 user = p) ∧
    (p ∉ catalog → set_mode catalog st user p = .error ()) := by
  refine ⟨?_, ?_, ?_⟩
  · intro h
    simp [get_mode, h]
  · intro hp
    refine ⟨⟨(user, p) :: st.modes⟩, ?_, ?_⟩
    · simp [set_mode, hp]
    · simp [get_mode, List.lookup, hp]
  · intro hp
    simp [set_mode, hp]

/-- C3 witness: the theorem evaluated on the concrete persona catalog of
initialize_personas with a fresh user, the valid persona id "weight" and the
invalid persona id "bogus". -/
theorem c3_witness :
    get_mode availablePersonas ⟨[]⟩ "alice" = defaultPersonaId ∧
    (∃ st2, set_mode availablePersonas ⟨[]⟩ "alice" "weight" = .ok st2 ∧
      get_mode availablePersonas st2 "alice" = "weight") ∧
    set_mode availablePersonas ⟨[]⟩ "alice" "bogus" = .error () := by
  have h1 := c3_user_mode_ops availablePersonas ⟨[]⟩ "alice" "weight"
  have h2 := c3_user_mode_ops availablePersonas ⟨[]⟩ "alice" "bogus"
  exact ⟨h1.1 rfl, h1.2.1 (by decide), h2.2.2 (by decide)⟩

/-- The stored index written by one _advance_topic call on a non-empty
curriculum: increment below the length, unchanged at or past it. -/
theorem advance_topic_index (language : String) (c : List Topic) (i : ℕ)
    (hne : c ≠ []) :
    (advance_topic language c i).2 = if i < c.length then i + 1 else i := by
  rw [advance_topic, if_neg hne]
  by_cases h2 : c.length ≤ i
  · rw [dif_pos h2, if_neg (by omega)]
  · rw [dif_neg h2, if_pos (by omega)]
    by_cases h3 : c.length ≤ i + 1
    · rw [dif_pos h3]
    · rw [dif_neg h3]

/-- Iterated advance from a legal index: the stored index climbs by one per call
and is capped at the curriculum length. -/
theorem advanceK_min (language : String) (c : List Topic) (hne : c ≠ []) :
    ∀ k i, i ≤ c.length → advanceK language c i k = min (i + k) c.length := by
  intro k
  induction k with
  | zero => intro i hi; simpa [advanceK] using (Nat.min_eq_left hi).symm
  | succ k ih =>
    intro i hi
    rw [advanceK, advance_topic_index language c i hne]
    by_cases hlt : i < c.length
    · rw [if_pos hlt, ih (i + 1) (by omega)]
      omega
    · rw [if_neg hlt, ih i hi]
      omega

/-- C4: for a loaded (non-empty) curriculum of length N, the stored index after k
advance calls from 0 equals min(k, N); an advance at index i < N stores i + 1 and
returns the topic at the new index (1-based display field i + 2) when i + 1 < N,
or the congratulatory completion message when i + 1 = N; an advance at i ≥ N
leaves the stored index unchanged and returns the completion marker. -/
theorem c4_advance_state_machine (language : String) (c : List Topic) (k : ℕ)
    (hne : c ≠ []) :
    advanceK language c 0 k = min k c.length ∧
    (∀ i, i < c.length → (advance_topic language c i).2 = i + 1) ∧
    (∀ i t, c.get? (i + 1) = some t →
      advance_topic language c i = (.topicPayload t (i + 2) c.length language, i + 1)) ∧
    (∀ i, i + 1 = c.length →
      advance_topic language c i = (.congrats language (i + 1) c.length, i + 1)) ∧
    (∀ i, c.length ≤ i →
      advance_topic language c i = (.allCompleted language i c.length, i)) := by
  refine ⟨?_, ?_, ?_, ?_, ?_⟩
  · simpa using advanceK_min language c hne k 0 (Nat.zero_le _)
  · intro i hi
    rw [advance_topic_index language c i hne, if_pos hi]
  · intro i t hget
    obtain ⟨hi1, hteq⟩ := List.get?_eq_some.mp hget
    rw [advance_topic, if_neg hne, dif_neg (by omega : ¬ c.length ≤ i),
      dif_neg (by omega : ¬ c.length ≤ i + 1)]
    rw [Prod.mk.injEq]
    exact ⟨by rw [← hteq], rfl⟩
  · intro i hi
    rw [advance_topic, if_neg hne, dif_neg (by omega : ¬ c.length ≤ i),
      dif_pos (by omega : c.length ≤ i + 1)]
  · intro i hi
    rw [advance_topic, if_neg hne, dif_pos hi]

/-- C4 witness: the theorem evaluated on a concrete two-topic curriculum with
three advance calls from index 0. -/
theorem c4_witness :
    advanceK "rust" [topicA, topicB] 0 3 = 2 ∧
    advance_topic "rust" [topicA, topicB] 0 =
      (.topicPayload topicB 2 2 "rust", 1) ∧
    advance_topic "rust" [topicA, topicB] 1 = (.congrats "rust" 2 2, 2) ∧
    advance_topic "rust" [topicA, topicB] 2 = (.allCompleted "rust" 2 2, 2) := by
  have h := c4_advance_state_machine "rust" [topicA, topicB] 3 (by simp)
  refine ⟨by simpa using h.1, ?_, ?_, ?_⟩
  · simpa using h.2.2.1 0 topicB rfl
  · simpa using h.2.2.2.1 1 rfl
  · simpa using h.2.2.2.2 2 (by simp)

/-- One progress operation keeps the stored index within the curriculum bound
(the index is a natural and thus also never negative). -/
theorem applyOp_bound (language : String) (c : List Topic) (op : ProgressOp)
    (i : ℕ) (h : i ≤ c.length) : applyOp language c op i ≤ c.length := by
  cases op with
  | get => exact h
  | advance =>
    by_cases hc : c = []
    · subst hc
      simpa [applyOp, advance_topic] using h
    · rw [applyOp, advance_topic_index language c i hc]
      split_ifs <;> omega
  | reset =>
    simp [applyOp, reset_progress]

/-- C5: every sequence of get/advance/reset operations preserves the invariant
that the stored current_topic_index stays between 0 and the curriculum length. -/
theorem c5_index_invariant (language : String) (c : List Topic)
    (ops : List ProgressOp) (idx : ℕ) (h : idx ≤ c.length) :
    applyOps language c ops idx ≤ c.length := by
  induction ops generalizing idx with
  | nil => exact h
  | cons op ops ih =>
    rw [applyOps, List.foldl_cons]
    exact ih _ (applyOp_bound language c op idx h)

/-- C5 witness: the invariant evaluated on a concrete one-topic curriculum with a
concrete operation sequence. -/
theorem c5_witness :
    applyOps "rust" [topicA] [.advance, .advance, .reset, .get] 0 ≤ 1 :=
  c5_index_invariant "rust" [topicA] [.advance, .advance, .reset, .get] 0 (Nat.zero_le _)

/-- C7: reset_progress always succeeds and stores index 0, and a get_topic
immediately after it returns the topic at index 0 of the curriculum, or the
curriculum-not-found marker when the language has no loaded curriculum. -/
theorem c7_reset_then_get (language : String) (c : List Topic) (idx : ℕ) :
    (reset_progress language idx).2 = 0 ∧
    (c = [] → get_topic language c (reset_progress language idx).2 =
      .curriculumNotFound language) ∧
    (∀ t ts, c = t :: ts → get_topic language c (reset_progress language idx).2 =
      .topicPayload t 1 c.length language) := by
  refine ⟨rfl, ?_, ?_⟩
  · intro h
    simp [get_topic, h]
  · intro t ts h
    subst h
    show get_topic language (t :: ts) 0 = _
    rw [get_topic]
    simp

/-- C7 witness: the theorem evaluated on a concrete one-topic curriculum from
prior stored index 5, and on a missing curriculum. -/
theorem c7_witness :
    (reset_progress "rust" 5).2 = 0 ∧
    get_topic "rust" [topicA] (reset_progress "rust" 5).2 =
      .topicPayload topicA 1 1 "rust" ∧
    get_topic "cpp" [] (reset_progress "cpp" 5).2 = .curriculumNotFound "cpp" := by
  have h1 := c7_reset_then_get "rust" [topicA] 5
  have h2 := c7_reset_then_get "cpp" ([] : List Topic) 5
  exact ⟨h1.1, h1.2.2 topicA [] rfl, h2.2.1 rfl⟩

/-- C10: whenever _get_topic or _advance_topic returns a successful topic payload,
its current_index display field equals the stored zero-based index plus one (for
_advance_topic, the index stored by that same call), lies in 1..N, the payload is
the curriculum entry at the zero-based stored index, and total_topics is N. -/
theorem c10_display_index (language : String) (c : List Topic) (idx : ℕ) :
    (∀ t ci tot lg, get_topic language c idx = .topicPayload t ci tot lg →
      ci = idx + 1 ∧ c.get? idx = some t ∧ 1 ≤ ci ∧ ci ≤ c.length ∧
        tot = c.length ∧ lg = language) ∧
    (∀ t ci tot lg, (advance_topic language c idx).1 = .topicPayload t ci tot lg →
      ci = (advance_topic language c idx).2 + 1 ∧
        c.get? ((advance_topic language c idx).2) = some t ∧ 1 ≤ ci ∧
        ci ≤ c.length ∧ tot = c.length ∧ lg = language) := by
  constructor
  · intro t ci tot lg h
    rw [get_topic] at h
    split_ifs at h with h1 h2
    obtain ⟨ht, hci, htot, hlg⟩ := TopicResult.topicPayload.injEq .. ▸ h
    refine ⟨hci.symm, ?_, by omega, by omega, htot.symm, hlg.symm⟩
    rw [List.get?_eq_get (by omega : idx < c.length)]
    exact congrArg some ht
  · intro t ci tot lg h
    rw [advance_topic] at h
    split_ifs at h with h1 h2 h3
    have hidx2 : (advance_topic language c idx).2 = idx + 1 := by
      rw [advance_topic_index language c idx h1, if_pos (by omega)]
    simp only [] at h
    obtain ⟨ht, hci, htot, hlg⟩ := TopicResult.topicPayload.injEq .. ▸ h
    rw [hidx2]
    refine ⟨by omega, ?_, by omega, by omega, htot.symm, hlg.symm⟩
    rw [List.get?_eq_get (by omega : idx + 1 < c.length)]
    exact congrArg some ht

/-- C10 witness: the theorem evaluated on a concrete two-topic curriculum at
stored index 0 for get and for advance. -/
theorem c10_witness :
    ((1 : ℕ) = 0 + 1 ∧ ([topicA, topicB] : List Topic).get? 0 = some topicA ∧
      (1 : ℕ) ≤ 1 ∧ 1 ≤ ([topicA, topicB] : List Topic).length ∧
      (2 : ℕ) = ([topicA, topicB] : List Topic).length ∧ "rust" = "rust") ∧
    ((2 : ℕ) = (advance_topic "rust" [topicA, topicB] 0).2 + 1 ∧
      ([topicA, topicB] : List Topic).get?
        ((advance_topic "rust" [topicA, topicB] 0).2) = some topicB ∧
      (1 : ℕ) ≤ 2 ∧ 2 ≤ ([topicA, topicB] : List Topic).length ∧
      (2 : ℕ) = ([topicA, topicB] : List Topic).length ∧ "rust" = "rust") := by
  have h := c10_display_index "rust" [topicA, topicB] 0
  exact ⟨h.1 topicA 1 2 "rust" rfl, h.2 topicB 2 2 "rust" rfl⟩

/-- The discovery loop makes at most as many attempts as it has iterations
available. -/
theorem discoverGo_attempts (outcomes : ℕ → AttemptOutcome) (lastAttempt : ℕ) :
    ∀ remaining attempt mcp_tools sleeps,
      (discoverGo outcomes lastAttempt remaining attempt mcp_tools sleeps).attemptsMade ≤
        attempt + remaining := by
  intro remaining
  induction remaining with
  | zero => intro attempt mt s; simp [discoverGo]
  | succ r ih =>
    intro attempt mt s
    cases houtcome : outcomes attempt with
    | ok tools =>
      simp only [discoverGo, houtcome]
      by_cases htools : tools = []
      · rw [if_pos htools]
        exact le_trans (ih (attempt + 1) tools s) (by omega)
      · rw [if_neg htools]
        exact (by omega : attempt + 1 ≤ attempt + (r + 1))
    | fail =>
      simp only [discoverGo, houtcome]
      by_cases hlt : attempt < lastAttempt
      · rw [if_pos hlt]
        exact le_trans (ih (attempt + 1) mt (s + 1)) (by omega)
      · rw [if_neg hlt]
        exact le_trans (ih (attempt + 1) mt s) (by omega)

/-- The discovery loop breaks at the first attempt that returns a non-empty tool
list: the final tools are that list and exactly that many attempts are made. -/
theorem discoverGo_first_success (outcomes : ℕ → AttemptOutcome) (lastAttempt k : ℕ)
    (ne : List Tool) (hk : outcomes k = .ok ne) (hne : ne ≠ []) :
    ∀ remaining attempt mcp_tools sleeps,
      attempt ≤ k → k < attempt + remaining →
      (∀ j, attempt ≤ j → j < k → ¬ nonEmptyOk (outcomes j)) →
      (discoverGo outcomes lastAttempt remaining attempt mcp_tools sleeps).tools = ne ∧
      (discoverGo outcomes lastAttempt remaining attempt mcp_tools sleeps).attemptsMade =
        k + 1 := by
  intro remaining
  induction remaining with
  | zero => intro attempt mt s h1 h2 h3; omega
  | succ r ih =>
    intro attempt mt s h1 h2 h3
    cases houtcome : outcomes attempt with
    | ok tools =>
      simp only [discoverGo, houtcome]
      by_cases hak : attempt = k
      · subst hak
        have htne : tools = ne := by
          rw [houtcome] at hk
          injection hk
        subst htne
        rw [if_neg hne]
        exact ⟨rfl, rfl⟩
      · have haltk : attempt < k := lt_of_le_of_ne h1 hak
        have hnot : ¬ nonEmptyOk (outcomes attempt) := h3 attempt le_rfl haltk
        have htools : tools = [] := by
          rw [houtcome] at hnot
          simpa [nonEmptyOk] using hnot
        rw [if_pos htools]
        exact ih (attempt + 1) tools s (by omega) (by omega)
          (fun j hj1 hj2 => h3 j (by omega) hj2)
    | fail =>
      simp only [discoverGo, houtcome]
      by_cases hak : attempt = k
      · subst hak
        rw [houtcome] at hk
        cases hk
      · have haltk : attempt < k := lt_of_le_of_ne h1 hak
        by_cases hlt : attempt < lastAttempt
        · rw [if_pos hlt]
          exact ih (attempt + 1) mt (s + 1) (by omega) (by omega)
            (fun j hj1 hj2 => h3 j (by omega) hj2)
        · rw [if_neg hlt]
          exact ih (attempt + 1) mt s (by omega) (by omega)
            (fun j hj1 hj2 => h3 j (by omega) hj2)

/-- When no remaining attempt yields a non-empty list, the discovery loop runs
all its iterations and ends with the empty tool list. -/
theorem discoverGo_exhaust (outcomes : ℕ → AttemptOutcome) (lastAttempt : ℕ) :
    ∀ remaining attempt sleeps,
      (∀ j, attempt ≤ j → j < attempt + remaining → ¬ nonEmptyOk (outcomes j)) →
      (discoverGo outcomes lastAttempt remaining attempt [] sleeps).tools = [] ∧
      (discoverGo outcomes lastAttempt remaining attempt [] sleeps).attemptsMade =
        attempt + remaining := by
  intro remaining
  induction remaining with
  | zero => intro attempt s h; exact ⟨rfl, rfl⟩
  | succ r ih =>
    intro attempt s h
    cases houtcome : outcomes attempt with
    | ok tools =>
      simp only [discoverGo, houtcome]
      have htools : tools = [] := by
        have hnot := h attempt le_rfl (by omega)
        rw [houtcome] at hnot
        simpa [nonEmptyOk] using hnot
      subst htools
      rw [if_pos rfl]
      have hr := ih (attempt + 1) s (fun j hj1 hj2 => h j (by omega) (by omega))
      exact ⟨hr.1, by rw [hr.2]; omega⟩
    | fail =>
      simp only [discoverGo, houtcome]
      by_cases hlt : attempt < lastAttempt
      · rw [if_pos hlt]
        have hr := ih (attempt + 1) (s + 1) (fun j hj1 hj2 => h j (by omega) (by omega))
        exact ⟨hr.1, by rw [hr.2]; omega⟩
      · rw [if_neg hlt]
        have hr := ih (attempt + 1) s (fun j hj1 hj2 => h j (by omega) (by omega))
        exact ⟨hr.1, by rw [hr.2]; omega⟩

/-- When every remaining attempt raises, the loop sleeps after each attempt
except the last one (one sleep fewer than the iterations run). -/
theorem discoverGo_allFail_sleeps (outcomes : ℕ → AttemptOutcome) (lastAttempt : ℕ) :
    ∀ remaining attempt mcp_tools sleeps,
      (∀ j, attempt ≤ j → j < attempt + remaining → outcomes j = .fail) →
      attempt + remaining = lastAttempt + 1 →
      (discoverGo outcomes lastAttempt remaining attempt mcp_tools sleeps).sleeps =
        sleeps + (remaining - 1) := by
  intro remaining
  induction remaining with
  | zero => intro attempt mt s h hrel; rfl
  | succ r ih =>
    intro attempt mt s h hrel
    have hfail : outcomes attempt = .fail := h attempt le_rfl (by omega)
    cases houtcome : outcomes attempt with
    | ok tools =>
      rw [houtcome] at hfail
      cases hfail
    | fail =>
      simp only [discoverGo, houtcome]
      by_cases hlt : attempt < lastAttempt
      · rw [if_pos hlt]
        have hr := ih (attempt + 1) mt (s + 1)
          (fun j hj1 hj2 => h j (by omega) (by omega)) (by omega)
        rw [hr]
        omega
      · rw [if_neg hlt]
        have hr0 : r = 0 := by omega
        subst hr0
        simp [discoverGo]

/-- When every remaining attempt returns an empty list without raising, the loop
never sleeps. -/
theorem discoverGo_emptyOk_sleeps (outcomes : ℕ → AttemptOutcome) (lastAttempt : ℕ) :
    ∀ remaining attempt mcp_tools sleeps,
      (∀ j, attempt ≤ j → j < attempt + remaining → outcomes j = .ok []) →
      (discoverGo outcomes lastAttempt remaining attempt mcp_tools sleeps).sleeps =
        sleeps := by
  intro remaining
  induction remaining with
  | zero => intro attempt mt s h; rfl
  | succ r ih =>
    intro attempt mt s h
    have hok : outcomes attempt = .ok [] := h attempt le_rfl (by omega)
    cases houtcome : outcomes attempt with
    | ok tools =>
      simp only [discoverGo, houtcome]
      have htools : tools = [] := by
        rw [houtcome] at hok
        injection hok
      subst htools
      rw [if_pos rfl]
      exact ih (attempt + 1) [] s (fun j hj1 hj2 => h j (by omega) (by omega))
    | fail =>
      rw [houtcome] at hok
      cases hok

/-- C6 counterexample: with the source value max_retries = 5, a run in which every
attempt returns an empty tool list without raising makes all five attempts but
performs zero delay sleeps, refuting the claimed fixed delay between consecutive
attempts (which would require four delays between the five attempts here). -/
theorem c6_counterexample :
    (discover_tools (fun _ => .ok []) 5).attemptsMade = 5 ∧
    (discover_tools (fun _ => .ok []) 5).sleeps = 0 := by
  constructor <;> rfl

/-- C6 (amended): tool discovery attempts connection and listing at most
max_retries times; it stops immediately on the first attempt that yields a
non-empty tool list; it waits the fixed delay between consecutive attempts when
the earlier attempt raised (when every attempt raises, exactly one sleep happens
after each attempt but the last), while an attempt that returns an empty list
without raising proceeds to the next attempt with no delay; after exhausting all
attempts it yields the empty tool list without raising, and the persona
toolsets partitioned from that empty list are all empty (degraded personas,
process not aborted). -/
theorem c6_discovery_retry (outcomes : ℕ → AttemptOutcome) (max_retries : ℕ) :
    (discover_tools outcomes max_retries).attemptsMade ≤ max_retries ∧
    (∀ k ne, k < max_retries → outcomes k = .ok ne → ne ≠ [] →
      (∀ j, j < k → ¬ nonEmptyOk (outcomes j)) →
      (discover_tools outcomes max_retries).tools = ne ∧
      (discover_tools outcomes max_retries).attemptsMade = k + 1) ∧
    ((∀ j, j < max_retries → ¬ nonEmptyOk (outcomes j)) →
      (discover_tools outcomes max_retries).tools = [] ∧
      (discover_tools outcomes max_retries).attemptsMade = max_retries ∧
      weight_mcp (discover_tools outcomes max_retries).tools = [] ∧
      rust_mcp (discover_tools outcomes max_retries).tools = [] ∧
      cpp_mcp (discover_tools outcomes max_retries).tools = [] ∧
      python_mcp (discover_tools outcomes max_retries).tools = [] ∧
      history_mcp (discover_tools outcomes max_retries).tools = []) ∧
    ((∀ j, j < max_retries → outcomes j = .fail) →
      (discover_tools outcomes max_retries).sleeps = max_retries - 1) ∧
    ((∀ j, j < max_retries → outcomes j = .ok []) →
      (discover_tools outcomes max_retries).sleeps = 0) := by
  refine ⟨?_, ?_, ?_, ?_, ?_⟩
  · simpa using discoverGo_attempts outcomes (max_retries - 1) max_retries 0 [] 0
  · intro k ne hk hok hne hbefore
    have hr := discoverGo_first_success outcomes (max_retries - 1) k ne hok hne
      max_retries 0 [] 0 (by omega) (by omega) (fun j _ hj2 => hbefore j hj2)
    exact hr
  · intro hnone
    have hr := discoverGo_exhaust outcomes (max_retries - 1) max_retries 0 0
      (fun j _ hj2 => hnone j (by omega))
    have hmade : (discover_tools outcomes max_retries).attemptsMade = 0 + max_retries :=
      hr.2
    refine ⟨hr.1, by omega, ?_, ?_, ?_, ?_, ?_⟩ <;>
      rw [show (discover_tools outcomes max_retries).tools = [] from hr.1] <;> rfl
  · intro hfail
    rcases Nat.eq_zero_or_pos max_retries with hmr | hmr
    · subst hmr
      rfl
    · have hs := discoverGo_allFail_sleeps outcomes (max_retries - 1) max_retries 0 [] 0
        (fun j _ hj2 => hfail j (by omega)) (by omega)
      have hs2 : (discover_tools outcomes max_retries).sleeps = 0 + (max_retries - 1) :=
        hs
      omega
  · intro hempty
    exact discoverGo_emptyOk_sleeps outcomes (max_retries - 1) max_retries 0 [] 0
      (fun j _ hj2 => hempty j (by omega))

/-- C6 witness: the amended theorem evaluated on a concrete outcome sequence in
which the first two attempts raise and the third yields one tool, with the source
value max_retries = 5. -/
theorem c6_witness :
    (discover_tools (fun j => if j = 2 then .ok [Tool.mk "get_rust_topic"] else .fail) 5).attemptsMade ≤ 5 ∧
    (discover_tools (fun j => if j = 2 then .ok [Tool.mk "get_rust_topic"] else .fail) 5).tools =
      [Tool.mk "get_rust_topic"] ∧
    (discover_tools (fun j => if j = 2 then .ok [Tool.mk "get_rust_topic"] else .fail) 5).attemptsMade = 3 := by
  have h := c6_discovery_retry
    (fun j => if j = 2 then .ok [Tool.mk "get_rust_topic"] else .fail) 5
  have h2 := h.2.1 2 [Tool.mk "get_rust_topic"] (by omega) (by simp) (by simp)
    (by decide)
  exact ⟨h.1, h2.1, h2.2⟩

end DiscordBot
